import Mathlib

/-!
Verification of the course-roster ETL pipeline (src/main.py).

The pipeline fetches course records per subject, removes duplicate
course/instructor rows (after stripping the trailing hybrid marker from the
course code), merges each instructor's courses into a single row, resolves
instructor names from an HTML fragment, resolves emails through a directory
lookup, and reorders the final columns.

The definitions below are shallow embeddings of the corresponding Python
functions; external services (HTTP endpoints, the directory service) are
passed in as function parameters.
-/

/-- A raw course row as produced by get_classes: the Term, CRN, Course and
Instructor columns of the dataframe. -/
structure CourseRecord where
  term : String
  crn : String
  course : String
  instr : String
  deriving DecidableEq

/-- Hybrid-suffix normalization of a course code, embedding the pandas
operation str.replace of the pattern H$ by the empty string.  Python's $
matches at the end of the string and also just before a newline that ends
the string, so exactly one letter H is removed from whichever of the two
anchor positions carries it: the H just before a final newline (keeping the
newline), or the H that is the final character. -/
def normalizeCourse (c : String) : String :=
  if c.data.getLast? = some '\n' ∧ c.data.dropLast.getLast? = some 'H' then
    String.mk (c.data.dropLast.dropLast ++ ['\n'])
  else if c.data.getLast? = some 'H' then String.mk c.data.dropLast
  else c

/-- Keep the first record for each distinct key, with an accumulator of the
keys already seen.  This is the semantics of pandas drop_duplicates with
keep set to first. -/
def dedupSeen {α κ : Type} [DecidableEq κ] (k : α → κ) : List κ → List α → List α
  | _, [] => []
  | seen, r :: rs =>
    if k r ∈ seen then dedupSeen k seen rs
    else r :: dedupSeen k (k r :: seen) rs

/-- First-seen-wins uniqueness over the key k. -/
def dedupByKey {α κ : Type} [DecidableEq κ] (k : α → κ) (l : List α) : List α :=
  dedupSeen k [] l

/-- The duplicate-detection key of remove_duplicates: the Course and
Instructor columns. -/
def dedupKey (r : CourseRecord) : String × String :=
  (r.course, r.instr)

/-- Apply hybrid-suffix normalization to the Course column of one record. -/
def normalizeRecord (r : CourseRecord) : CourseRecord :=
  { r with course := normalizeCourse r.course }

/-- Embedding of remove_duplicates: drop duplicate (Course, Instructor) rows
keeping the first, strip the trailing hybrid marker from Course, then drop
duplicates again. -/
def remove_duplicates (l : List CourseRecord) : List CourseRecord :=
  dedupByKey dedupKey ((dedupByKey dedupKey l).map normalizeRecord)

/-- The hybrid marker is present in a course code: it ends in the letter H,
or it ends in the letter H followed by a single trailing newline — the two
positions where the dollar anchor of the stripping pattern matches, so
exactly the codes that normalizeCourse changes. -/
def hybridMarkerAtEnd (c : String) : Prop :=
  (c.data.getLast? = some '\n' ∧ c.data.dropLast.getLast? = some 'H') ∨
  c.data.getLast? = some 'H'

instance instDecidableHybridMarkerAtEnd (c : String) :
    Decidable (hybridMarkerAtEnd c) :=
  inferInstanceAs (Decidable (_ ∨ _))

/-- Code-point lexicographic comparison of character lists, the order Python
uses when pandas sorts string group keys. -/
def charListLe : List Char → List Char → Bool
  | [], _ => true
  | _ :: _, [] => false
  | a :: as, b :: bs =>
    if a.toNat < b.toNat then true
    else if b.toNat < a.toNat then false
    else charListLe as bs

/-- Lexicographic comparison of strings by code point. -/
def strLeB (a b : String) : Bool :=
  charListLe a.data b.data

/-- Insert a string into a list sorted by strLeB, keeping it sorted. -/
def insertSorted (s : String) : List String → List String
  | [] => [s]
  | t :: ts => if strLeB s t = true then s :: t :: ts else t :: insertSorted s ts

/-- Insertion sort by strLeB: the ascending key order that pandas groupby
produces for string keys. -/
def sortStrings (l : List String) : List String :=
  l.foldr insertSorted []

/-- One output row of merge_classes_for_instructor: the Instructor key and
the aggregated Course, Term and CRN columns. -/
structure MergedRecord where
  instr : String
  course : String
  term : String
  crn : String
  deriving DecidableEq

/-- Join a list of strings with a comma and a space, the aggregation applied
to the Course column. -/
def joinComma : List String → String
  | [] => ""
  | [s] => s
  | s :: rest => s ++ ", " ++ joinComma rest

/-- Build the aggregated row for one instructor: all Course values of the
group joined with a comma, and the Term and CRN of the group's first row. -/
def buildRow (l : List CourseRecord) (i : String) : MergedRecord :=
  { instr := i
    course := joinComma ((l.filter (fun r => decide (r.instr = i))).map (fun r => r.course))
    term := (((l.filter (fun r => decide (r.instr = i))).head?).map (fun r => r.term)).getD ("")
    crn := (((l.filter (fun r => decide (r.instr = i))).head?).map (fun r => r.crn)).getD ("") }

/-- Embedding of merge_classes_for_instructor: pandas groupby on the
Instructor column with sorted group keys, aggregating Course by join and
Term and CRN by first. -/
def merge_classes_for_instructor (l : List CourseRecord) : List MergedRecord :=
  (sortStrings (dedupByKey id (l.map (fun r => r.instr)))).map (buildRow l)

/-- A two-record input whose instructors are not in alphabetical order,
used to exhibit the output order of merge_classes_for_instructor. -/
def c4Input : List CourseRecord :=
  [⟨"Spring 2023", "10001", "BA101", "Zed"⟩,
   ⟨"Spring 2023", "10002", "BA102", "Abe"⟩]

/-- The literal opening of the instructor-detail div matched by the regular
expression in get_instructor_name. -/
def openTag : List Char :=
  "<div class=\"instructor-detail\">".data

/-- The literal closing div tag of the same regular expression. -/
def closeTag : List Char :=
  "</div>".data

/-- Non-greedy capture after the opening tag: consume at least one
non-newline character, stopping at the earliest position where the closing
tag follows, as the lazy one-or-more dot of the pattern does. -/
def captureFrom (acc : List Char) : List Char → Option (List Char)
  | [] => none
  | c :: rest =>
    if c = '\n' then none
    else if closeTag.isPrefixOf rest then some (c :: acc).reverse
    else captureFrom (c :: acc) rest

/-- Left-to-right scan of re.search: at each position try to match the
opening tag followed by a non-greedy capture and the closing tag; the first
successful position wins. -/
def searchDetail : List Char → Option (List Char)
  | [] => none
  | c :: rest =>
    if openTag.isPrefixOf (c :: rest) then
      match captureFrom [] ((c :: rest).drop openTag.length) with
      | some cap => some cap
      | none => searchDetail rest
    else searchDetail rest

/-- Split a character list at the first space character, as the Python
split on a single space with maxsplit one does; none when no space occurs
(in which case the tuple unpacking in get_instructor_name raises). -/
def splitFirstSpace (acc : List Char) : List Char → Option (List Char × List Char)
  | [] => none
  | c :: rest =>
    if c = ' ' then some (acc.reverse, rest)
    else splitFirstSpace (c :: acc) rest

/-- Per-record body of get_instructor_name: search the detail HTML for the
instructor-detail fragment; on a match split the captured text at the first
space into first and last name, where a captured text with no space makes
the tuple unpacking raise and the generic handler abort the run (error);
with no match return two empty strings and continue (ok). -/
def extract_instructor_name (html : String) : Except Unit (String × String) :=
  match searchDetail html.data with
  | none => Except.ok ("", "")
  | some cap =>
    match splitFirstSpace [] cap with
    | none => Except.error ()
    | some (f, l) => Except.ok (String.mk f, String.mk l)

/-- Detail HTML whose instructor has a two-part name. -/
def janeHtml : String :=
  "<div class=\"instructor-detail\">Jane Doe</div>"

/-- One directory entry as used by get_emails: only the requested
principal-name attribute is modelled. -/
structure LdapEntry where
  userPrincipalName : String
  deriving DecidableEq

/-- Embedding of the per-row email loop of get_emails: for each
first-name/last-name pair the directory search returns a list of entries;
with at least one entry the first entry's principal name becomes the email,
with zero entries the row gets the absence marker none and processing
continues. -/
def get_emails (lookup : String → String → List LdapEntry)
    (rows : List (String × String)) : List (Option String) :=
  rows.map (fun p =>
    match lookup p.1 p.2 with
    | [] => none
    | e :: _ => some e.userPrincipalName)

/-- Observable events of the directory-service session in get_emails. -/
inductive DirEvent where
  | bind
  | search (first last : String)
  | unbind
  | exitRun (code : Nat)
  deriving DecidableEq

/-- Trace of the per-row search loop: one search event per row, aborting
with exit code one when a search raises. -/
def searchTrace (ok : String → String → Bool) : List (String × String) → List DirEvent
  | [] => []
  | p :: rest =>
    DirEvent.search p.1 p.2 ::
      (if ok p.1 p.2 then searchTrace ok rest else [DirEvent.exitRun 1])

/-- Trace of the whole get_emails session: one bind, then on success the
search loop, and on bind failure an abort with exit code one.  No unbind
event is ever emitted, mirroring the absence of any unbind call. -/
def emailTrace (bindOk : Bool) (ok : String → String → Bool)
    (rows : List (String × String)) : List DirEvent :=
  if bindOk then DirEvent.bind :: searchTrace ok rows
  else [DirEvent.bind, DirEvent.exitRun 1]

/-- A row of the dataframe entering the final column reordering of
etl_pipeline: Term, Course, First_Name, Last_Name and Email columns. -/
structure EmailedRow where
  term : String
  course : String
  first_name : String
  last_name : String
  email : Option String
  deriving DecidableEq

/-- The publication column order requested at the end of etl_pipeline. -/
def rosterColumns : List String :=
  ["Last_Name", "First_Name", "Term", "Course", "Email"]

/-- One reordered output row as a list of column-name/value cells; every
non-email cell is always present, and the email cell carries the resolved
address or the absence marker none. -/
def assembleRow (r : EmailedRow) : List (String × Option String) :=
  [("Last_Name", some r.last_name), ("First_Name", some r.first_name),
   ("Term", some r.term), ("Course", some r.course), ("Email", r.email)]

/-- Embedding of the final reshaping of etl_pipeline: select and reorder
the columns of every row, nothing else. -/
def roster_assemble (rows : List EmailedRow) : List (List (String × Option String)) :=
  rows.map assembleRow

/-- One entry of the results array of the course search response. -/
structure RawResult where
  crn : String
  code : String
  instr : String
  isCancelled : String

/-- The fixed list of business subject codes queried by get_classes. -/
def majors : List String :=
  ["MGMT", "HM", "FIN", "DSGN", "SCLM", "MRKT", "BIS", "BANA", "BA", "ACTG"]

/-- The fixed term-code-to-label table. -/
def term_dict : List (String × String) :=
  [("01", "Fall"), ("02", "Winter"), ("03", "Spring"), ("04", "Summer")]

/-- One iteration of the subject loop in get_classes: the search call may
fail (transport, non-JSON, missing results: error, exit code one); on
success the cancelled sections are dropped and the Term cell is built from
the term-table label, whose absence raises inside the try block and is
caught by the same generic handler (error, exit code one). -/
def fetch_major (api : String → String → Option (List RawResult))
    (year term_code major : String) : Except Nat (List CourseRecord) :=
  match api (year ++ term_code) major with
  | none => Except.error 1
  | some results =>
    match term_dict.lookup term_code with
    | none => Except.error 1
    | some label =>
      Except.ok ((results.filter (fun r => decide (r.isCancelled ≠ "1"))).map
        (fun r => { term := label ++ " " ++ year, crn := r.crn,
                    course := r.code, instr := r.instr }))

/-- The subject loop of get_classes, concatenating per-subject rows and
propagating the first fatal error. -/
def get_classes_go (api : String → String → Option (List RawResult))
    (year term_code : String) : List String → List CourseRecord →
      Except Nat (List CourseRecord)
  | [], acc => Except.ok acc
  | m :: ms, acc =>
    match fetch_major api year term_code m with
    | Except.error e => Except.error e
    | Except.ok rows => get_classes_go api year term_code ms (acc ++ rows)

/-- Embedding of get_classes over an abstract search endpoint. -/
def get_classes (api : String → String → Option (List RawResult))
    (year term_code : String) : Except Nat (List CourseRecord) :=
  get_classes_go api year term_code majors []

/-- A directory lookup fixture answering only for the first name Jane. -/
def dirJane : String → String → List LdapEntry :=
  fun f _ => if f = "Jane" then [LdapEntry.mk ("doej@oregonstate.edu")] else []

/-- Detail HTML whose instructor has a single-token name with no space. -/
def cherHtml : String :=
  "<div class=\"instructor-detail\">Cher</div>"

/-- Sanity scenario from the spec: a hybrid section and its standard
section taught by the same person collapse to one record. -/
theorem remove_duplicates_hybrid_scenario : remove_duplicates
    [⟨"Spring 2023", "1", "BA101", "Jane Doe"⟩,
     ⟨"Spring 2023", "2", "BA101H", "Jane Doe"⟩] =
    [⟨"Spring 2023", "1", "BA101", "Jane Doe"⟩] := by decide

/-- Sanity check: normalization removes a single trailing hybrid marker. -/
theorem normalizeCourse_strips_one_h : normalizeCourse ("BAHH") = "BAH" := by decide

theorem dedupSeen_subset {α κ : Type} [DecidableEq κ] (k : α → κ) :
    ∀ (l : List α) (seen : List κ) (a : α), a ∈ dedupSeen k seen l → a ∈ l := by
  intro l
  induction l with
  | nil => intro seen a h; simp [dedupSeen] at h
  | cons r rs ih =>
    intro seen a h
    by_cases hr : k r ∈ seen
    · simp only [dedupSeen, if_pos hr] at h
      exact List.mem_cons_of_mem _ (ih seen a h)
    · simp only [dedupSeen, if_neg hr, List.mem_cons] at h
      rcases h with h | h
      · exact h ▸ List.mem_cons_self _ _
      · exact List.mem_cons_of_mem _ (ih _ a h)

theorem dedupSeen_pairwise {α κ : Type} [DecidableEq κ] (k : α → κ) :
    ∀ (l : List α) (seen : List κ),
      (∀ a ∈ dedupSeen k seen l, k a ∉ seen) ∧
      (dedupSeen k seen l).Pairwise (fun a b => k a ≠ k b) := by
  intro l
  induction l with
  | nil => intro seen; simp [dedupSeen]
  | cons r rs ih =>
    intro seen
    by_cases hr : k r ∈ seen
    · simpa only [dedupSeen, if_pos hr] using ih seen
    · simp only [dedupSeen, if_neg hr]
      refine ⟨?_, ?_⟩
      · intro a ha
        rcases List.mem_cons.mp ha with h | h
        · exact h ▸ hr
        · have := (ih (k r :: seen)).1 a h
          exact fun hs => this (List.mem_cons_of_mem _ hs)
      · refine List.pairwise_cons.mpr ⟨?_, (ih (k r :: seen)).2⟩
        intro b hb
        have := (ih (k r :: seen)).1 b hb
        intro he
        exact this (he ▸ List.mem_cons_self _ _)

theorem dedupSeen_length_le {α κ : Type} [DecidableEq κ] (k : α → κ) :
    ∀ (l : List α) (seen : List κ), (dedupSeen k seen l).length ≤ l.length := by
  intro l
  induction l with
  | nil => intro seen; simp [dedupSeen]
  | cons r rs ih =>
    intro seen
    by_cases hr : k r ∈ seen
    · simp only [dedupSeen, if_pos hr]
      exact Nat.le_succ_of_le (ih seen)
    · simp only [dedupSeen, if_neg hr, List.length_cons]
      exact Nat.succ_le_succ (ih (k r :: seen))

theorem dedupSeen_map_dedupSeen {α κ : Type} [DecidableEq κ] (k : α → κ) (f : α → α)
    (hcong : ∀ a b, k a = k b → k (f a) = k (f b)) :
    ∀ (l : List α) (s1 s2 : List κ), (∀ a, k a ∈ s1 → k (f a) ∈ s2) →
      dedupSeen k s2 ((dedupSeen k s1 l).map f) = dedupSeen k s2 (l.map f) := by
  intro l
  induction l with
  | nil => intro s1 s2 _; simp [dedupSeen]
  | cons r rs ih =>
    intro s1 s2 hinv
    by_cases h1 : k r ∈ s1
    · have h2 : k (f r) ∈ s2 := hinv r h1
      simp only [dedupSeen, if_pos h1, List.map_cons, if_pos h2]
      exact ih s1 s2 hinv
    · by_cases h2 : k (f r) ∈ s2
      · simp only [dedupSeen, if_neg h1, List.map_cons, if_pos h2]
        rw [ih (k r :: s1) s2]
        intro a ha
        rcases List.mem_cons.mp ha with h | h
        · exact (hcong a r h) ▸ h2
        · exact hinv a h
      · simp only [dedupSeen, if_neg h1, List.map_cons, if_neg h2]
        congr 1
        rw [ih (k r :: s1) (k (f r) :: s2)]
        intro a ha
        rcases List.mem_cons.mp ha with h | h
        · exact (hcong a r h) ▸ List.mem_cons_self _ _
        · exact List.mem_cons_of_mem _ (hinv a h)

theorem dedupByKey_pairwise {α κ : Type} [DecidableEq κ] (k : α → κ) (l : List α) :
    (dedupByKey k l).Pairwise (fun a b => k a ≠ k b) :=
  (dedupSeen_pairwise k l []).2

theorem dedupByKey_map_dedupByKey {α κ : Type} [DecidableEq κ] (k : α → κ) (f : α → α)
    (hcong : ∀ a b, k a = k b → k (f a) = k (f b)) (l : List α) :
    dedupByKey k ((dedupByKey k l).map f) = dedupByKey k (l.map f) :=
  dedupSeen_map_dedupSeen k f hcong l [] [] (by intro a h; simp at h)

theorem dedupSeen_id_mem {α : Type} [DecidableEq α] :
    ∀ (l : List α) (seen : List α) (a : α),
      a ∈ dedupSeen id seen l ↔ (a ∈ l ∧ a ∉ seen) := by
  intro l
  induction l with
  | nil => intro seen a; simp [dedupSeen]
  | cons r rs ih =>
    intro seen a
    by_cases hr : (r : α) ∈ seen
    · have hr' : id r ∈ seen := hr
      rw [List.mem_cons]
      simp only [dedupSeen, if_pos hr']
      rw [ih seen a]
      constructor
      · rintro ⟨h1, h2⟩; exact ⟨Or.inr h1, h2⟩
      · rintro ⟨h1 | h1, h2⟩
        · exact absurd (h1 ▸ hr) h2
        · exact ⟨h1, h2⟩
    · have hr' : ¬ id r ∈ seen := hr
      simp only [dedupSeen, id_eq]
      rw [if_neg hr]
      simp only [List.mem_cons, ih (r :: seen) a]
      by_cases ha : a = r
      · subst ha; simp [hr]
      · simp [ha]

theorem dedupByKey_id_mem {α : Type} [DecidableEq α] (l : List α) (a : α) :
    a ∈ dedupByKey id l ↔ a ∈ l := by
  unfold dedupByKey
  rw [dedupSeen_id_mem]
  simp

theorem dedupSeen_id_of_nodup {α : Type} [DecidableEq α] :
    ∀ (l : List α) (seen : List α), l.Nodup → (∀ a ∈ l, a ∉ seen) →
      dedupSeen id seen l = l := by
  intro l
  induction l with
  | nil => intro seen _ _; simp [dedupSeen]
  | cons r rs ih =>
    intro seen hnd hout
    have hr : ¬ (id r ∈ seen) := hout r (List.mem_cons_self _ _)
    simp only [dedupSeen, if_neg hr]
    congr 1
    refine ih (r :: seen) (List.Nodup.of_cons hnd) ?_
    intro a ha
    rcases List.nodup_cons.mp hnd with ⟨hne, _⟩
    intro hmem
    rcases List.mem_cons.mp hmem with h | h
    · exact hne (h ▸ ha)
    · exact hout a (List.mem_cons_of_mem _ ha) h

theorem dedupByKey_id_of_nodup {α : Type} [DecidableEq α] (l : List α) (h : l.Nodup) :
    dedupByKey id l = l :=
  dedupSeen_id_of_nodup l [] h (by simp)

theorem dedupKey_normalize_congr (a b : CourseRecord) (h : dedupKey a = dedupKey b) :
    dedupKey (normalizeRecord a) = dedupKey (normalizeRecord b) := by
  simp only [dedupKey, normalizeRecord, Prod.mk.injEq] at h ⊢
  exact ⟨congrArg normalizeCourse h.1, h.2⟩

/-- C1: for every input sequence of course records, the output of
remove_duplicates contains no two records that share both the normalized
course code and the instructor display name, and it equals the result of
applying first-seen-wins uniqueness to the sequence obtained by normalizing
every record's course code (uniqueness after hybrid-suffix normalization). -/
theorem remove_duplicates_spec (l : List CourseRecord) :
    (remove_duplicates l).Pairwise (fun a b => dedupKey a ≠ dedupKey b) ∧
    remove_duplicates l = dedupByKey dedupKey (l.map normalizeRecord) :=
  ⟨dedupByKey_pairwise dedupKey _,
   dedupByKey_map_dedupByKey dedupKey normalizeRecord dedupKey_normalize_congr l⟩

/-- C5 counterexample: hybrid-suffix normalization strips exactly one H at
the marker position per application, so it is not idempotent on a course
code ending in two H characters: normalizing BAHH gives BAH, and
normalizing again gives BA. -/
theorem normalizeCourse_not_idempotent :
    normalizeCourse (normalizeCourse ("BAHH")) ≠ normalizeCourse ("BAHH") := by
  decide

theorem normalizeCourse_eq_self_of_no_marker (d : String)
    (h : ¬ hybridMarkerAtEnd d) : normalizeCourse d = d := by
  have h1 : ¬ (d.data.getLast? = some '\n' ∧ d.data.dropLast.getLast? = some 'H') :=
    fun hc => h (Or.inl hc)
  have h2 : ¬ d.data.getLast? = some 'H' := fun hc => h (Or.inr hc)
  unfold normalizeCourse
  rw [if_neg h1, if_neg h2]

theorem normalizeCourse_ne_of_marker (d : String) (h : hybridMarkerAtEnd d) :
    normalizeCourse d ≠ d := by
  intro he
  have hdata : (normalizeCourse d).data = d.data := congrArg String.data he
  rcases h with ⟨h1, h2⟩ | h1
  · unfold normalizeCourse at hdata
    rw [if_pos ⟨h1, h2⟩] at hdata
    have hdata2 : d.data.dropLast.dropLast ++ ['\n'] = d.data := hdata
    have hne : d.data.dropLast ≠ [] := by
      intro h0
      rw [h0] at h2
      exact Option.noConfusion h2
    have hpos : 1 ≤ d.data.dropLast.length := List.length_pos.mpr hne
    have hdl : d.data.dropLast.length = d.data.length - 1 := List.length_dropLast _
    have hlen := congrArg List.length hdata2
    rw [List.length_append, List.length_dropLast, List.length_dropLast,
      List.length_singleton] at hlen
    omega
  · have hfirst : ¬ (d.data.getLast? = some '\n' ∧ d.data.dropLast.getLast? = some 'H') := by
      rintro ⟨hc, _⟩
      rw [h1] at hc
      exact absurd hc (by decide)
    unfold normalizeCourse at hdata
    rw [if_neg hfirst, if_pos h1] at hdata
    have hdata2 : d.data.dropLast = d.data := hdata
    have hne : d.data ≠ [] := by
      intro h0
      rw [h0] at h1
      exact Option.noConfusion h1
    have hpos : 1 ≤ d.data.length := List.length_pos.mpr hne
    have hlen := congrArg List.length hdata2
    rw [List.length_dropLast] at hlen
    omega

/-- C5 amended: hybrid-suffix normalization removes exactly one H at the
dollar-anchor position (the end of the code, or just before a single
trailing newline), so it is idempotent exactly on those course codes whose
normalized form carries no H left at that marker position; a code such as
BAHH, or AHH followed by a newline, still carries a marker after one
application and loses another H on the second. -/
theorem normalizeCourse_idempotent_iff (c : String) :
    normalizeCourse (normalizeCourse c) = normalizeCourse c ↔
      ¬ hybridMarkerAtEnd (normalizeCourse c) := by
  constructor
  · intro he hm
    exact normalizeCourse_ne_of_marker (normalizeCourse c) hm he
  · intro h
    exact normalizeCourse_eq_self_of_no_marker (normalizeCourse c) h

theorem charListLe_cons_iff (a b : Char) (as bs : List Char) :
    charListLe (a :: as) (b :: bs) = true ↔
      (a.toNat < b.toNat ∨ (a.toNat = b.toNat ∧ charListLe as bs = true)) := by
  simp only [charListLe]
  by_cases h1 : a.toNat < b.toNat
  · simp [h1]
  · by_cases h2 : b.toNat < a.toNat
    · rw [if_neg h1, if_pos h2]
      constructor
      · intro h; exact absurd h (by simp)
      · rintro (h | ⟨he, _⟩)
        · exact absurd h h1
        · omega
    · have h3 : a.toNat = b.toNat :=
        Nat.le_antisymm (Nat.le_of_not_lt h2) (Nat.le_of_not_lt h1)
      rw [if_neg h1, if_neg h2]
      simp [h3]

theorem charListLe_total :
    ∀ as bs : List Char, charListLe as bs = true ∨ charListLe bs as = true := by
  intro as
  induction as with
  | nil => intro bs; left; rfl
  | cons a as ih =>
    intro bs
    cases bs with
    | nil => right; rfl
    | cons b bs =>
      rcases Nat.lt_trichotomy a.toNat b.toNat with h | h | h
      · left; exact (charListLe_cons_iff a b as bs).mpr (Or.inl h)
      · rcases ih bs with h2 | h2
        · left; exact (charListLe_cons_iff a b as bs).mpr (Or.inr ⟨h, h2⟩)
        · right; exact (charListLe_cons_iff b a bs as).mpr (Or.inr ⟨h.symm, h2⟩)
      · right; exact (charListLe_cons_iff b a bs as).mpr (Or.inl h)

theorem charListLe_trans :
    ∀ as bs cs : List Char, charListLe as bs = true → charListLe bs cs = true →
      charListLe as cs = true := by
  intro as
  induction as with
  | nil => intro bs cs _ _; rfl
  | cons a as ih =>
    intro bs cs hab hbc
    cases bs with
    | nil => simp [charListLe] at hab
    | cons b bs =>
      cases cs with
      | nil => simp [charListLe] at hbc
      | cons c cs =>
        rw [charListLe_cons_iff] at hab hbc ⊢
        rcases hab with h1 | ⟨h1, h1t⟩ <;> rcases hbc with h2 | ⟨h2, h2t⟩
        · left; omega
        · left; omega
        · left; omega
        · right; exact ⟨by omega, ih bs cs h1t h2t⟩

theorem insertSorted_perm (s : String) :
    ∀ t : List String, List.Perm (insertSorted s t) (s :: t) := by
  intro t
  induction t with
  | nil => simp [insertSorted]
  | cons x xs ih =>
    simp only [insertSorted]
    by_cases h : strLeB s x = true
    · rw [if_pos h]
    · rw [if_neg h]
      exact (List.Perm.cons x ih).trans (List.Perm.swap s x xs)

theorem sortStrings_perm : ∀ l : List String, List.Perm (sortStrings l) l := by
  intro l
  induction l with
  | nil => simp [sortStrings]
  | cons x xs ih =>
    have hs : sortStrings (x :: xs) = insertSorted x (sortStrings xs) := rfl
    rw [hs]
    exact (insertSorted_perm x (sortStrings xs)).trans (List.Perm.cons x ih)

theorem insertSorted_pairwise (s : String) :
    ∀ t : List String, t.Pairwise (fun a b => strLeB a b = true) →
      (insertSorted s t).Pairwise (fun a b => strLeB a b = true) := by
  intro t
  induction t with
  | nil => intro _; simp [insertSorted]
  | cons x xs ih =>
    intro hp
    rcases List.pairwise_cons.mp hp with ⟨hx, hxs⟩
    simp only [insertSorted]
    by_cases h : strLeB s x = true
    · rw [if_pos h]
      refine List.pairwise_cons.mpr ⟨?_, hp⟩
      intro b hb
      rcases List.mem_cons.mp hb with rfl | hb
      · exact h
      · exact charListLe_trans s.data x.data b.data h (hx b hb)
    · rw [if_neg h]
      refine List.pairwise_cons.mpr ⟨?_, ih hxs⟩
      intro b hb
      have hmem := (insertSorted_perm s xs).mem_iff.mp hb
      have hxles : strLeB x s = true := by
        rcases charListLe_total s.data x.data with h1 | h1
        · exact absurd h1 h
        · exact h1
      rcases List.mem_cons.mp hmem with rfl | hb2
      · exact hxles
      · exact hx b hb2

theorem sortStrings_pairwise :
    ∀ l : List String, (sortStrings l).Pairwise (fun a b => strLeB a b = true) := by
  intro l
  induction l with
  | nil => simp [sortStrings]
  | cons x xs ih => exact insertSorted_pairwise x (sortStrings xs) ih

theorem merge_map_instr (l : List CourseRecord) :
    (merge_classes_for_instructor l).map (fun m => m.instr) =
      sortStrings (dedupByKey id (l.map (fun r => r.instr))) := by
  unfold merge_classes_for_instructor
  rw [List.map_map]
  have hc : ((fun m => m.instr) ∘ buildRow l) = fun i : String => i := rfl
  rw [hc, List.map_id']

/-- C2: for every input sequence, merge_classes_for_instructor outputs
exactly one row per distinct instructor display name present in the input
(exact string match): the instructor column of the output is duplicate-free
and contains exactly the instructors of the input, and the number of output
rows is at most the number of input rows. -/
theorem merge_one_row_per_instructor (l : List CourseRecord) :
    ((merge_classes_for_instructor l).map (fun m => m.instr)).Nodup ∧
    (∀ i : String, i ∈ (merge_classes_for_instructor l).map (fun m => m.instr) ↔
        i ∈ l.map (fun r => r.instr)) ∧
    (merge_classes_for_instructor l).length ≤ l.length := by
  have hmap := merge_map_instr l
  have hperm := sortStrings_perm (dedupByKey id (l.map (fun r => r.instr)))
  have hnodup : (dedupByKey id (l.map (fun r => r.instr))).Nodup := by
    have h := dedupByKey_pairwise (id : String → String) (l.map (fun r => r.instr))
    exact h
  refine ⟨?_, ?_, ?_⟩
  · rw [hmap]; exact hperm.nodup_iff.mpr hnodup
  · intro i
    rw [hmap, hperm.mem_iff, dedupByKey_id_mem]
  · have h1 : (merge_classes_for_instructor l).length =
        (sortStrings (dedupByKey id (l.map (fun r => r.instr)))).length := by
      unfold merge_classes_for_instructor; rw [List.length_map]
    rw [h1, hperm.length_eq]
    calc (dedupByKey id (l.map (fun r => r.instr))).length
        ≤ (l.map (fun r => r.instr)).length := dedupSeen_length_le _ _ _
      _ = l.length := List.length_map _ _

/-- C4 counterexample: on an input whose first record's instructor is Zed
and whose second record's instructor is Abe, merge_classes_for_instructor
emits Abe's row before Zed's row, so the output is not in
group-first-encounter order. -/
theorem merge_not_first_encounter_order :
    ¬ (∀ i j : Fin (merge_classes_for_instructor c4Input).length,
        (c4Input.map (fun r => r.instr)).indexOf
            ((merge_classes_for_instructor c4Input).get i).instr <
          (c4Input.map (fun r => r.instr)).indexOf
            ((merge_classes_for_instructor c4Input).get j).instr →
        (i : Nat) < (j : Nat)) := by
  decide

/-- C4 amended: pandas groupby sorts its group keys, so the rows of
merge_classes_for_instructor are emitted in ascending code-point
lexicographic order of instructor_display_name (not in group-first-encounter
order). -/
theorem merge_sorted_by_instructor (l : List CourseRecord) :
    ((merge_classes_for_instructor l).map (fun m => m.instr)).Pairwise
      (fun a b => strLeB a b = true) := by
  rw [merge_map_instr]
  exact sortStrings_pairwise _

/-- C3: on a deduplicated input (no two records share both course code and
instructor), every row of merge_classes_for_instructor carries the Term and
CRN of the first record of its instructor's group, and its Course cell is
the distinct course codes of that group, in first-encounter order, joined
with a comma and a space. -/
theorem merge_group_content (l : List CourseRecord)
    (h : l.Pairwise (fun a b => dedupKey a ≠ dedupKey b)) :
    ∀ m ∈ merge_classes_for_instructor l,
      ∃ r0, (l.filter (fun r => decide (r.instr = m.instr))).head? = some r0 ∧
        m.term = r0.term ∧ m.crn = r0.crn ∧
        m.course = joinComma (dedupByKey id
          ((l.filter (fun r => decide (r.instr = m.instr))).map (fun r => r.course))) := by
  intro m hm
  unfold merge_classes_for_instructor at hm
  rcases List.mem_map.mp hm with ⟨i, hi, hbuild⟩
  have hinstr : m.instr = i := by rw [← hbuild]; rfl
  have himem : i ∈ l.map (fun r => r.instr) := by
    have hmem := (sortStrings_perm _).mem_iff.mp hi
    exact (dedupByKey_id_mem _ _).mp hmem
  rcases List.mem_map.mp himem with ⟨r, hrl, hri⟩
  have hrg : r ∈ l.filter (fun r => decide (r.instr = m.instr)) := by
    apply List.mem_filter.mpr
    refine ⟨hrl, ?_⟩
    rw [hinstr]
    simpa using hri
  obtain ⟨r0, g2, hgeq⟩ :
      ∃ r0 g2, l.filter (fun r => decide (r.instr = m.instr)) = r0 :: g2 := by
    cases hge : l.filter (fun r => decide (r.instr = m.instr)) with
    | nil => rw [hge] at hrg; cases hrg
    | cons a b => exact ⟨a, b, rfl⟩
  have hfe : l.filter (fun r => decide (r.instr = m.instr)) =
      l.filter (fun r => decide (r.instr = i)) := by rw [hinstr]
  have hgp : (l.filter (fun r => decide (r.instr = m.instr))).Pairwise
      (fun a b => dedupKey a ≠ dedupKey b) :=
    List.Pairwise.sublist (List.filter_sublist l) h
  have hsame : ∀ a ∈ l.filter (fun r => decide (r.instr = m.instr)), a.instr = m.instr := by
    intro a ha
    have := (List.mem_filter.mp ha).2
    simpa using this
  have hcourses : ((l.filter (fun r => decide (r.instr = m.instr))).map
      (fun r => r.course)).Nodup := by
    have hp2 : (l.filter (fun r => decide (r.instr = m.instr))).Pairwise
        (fun a b => a.course ≠ b.course) := by
      refine List.Pairwise.imp_of_mem ?_ hgp
      intro a b ha hb hab hcc
      apply hab
      unfold dedupKey
      rw [hcc, hsame a ha, hsame b hb]
    exact List.pairwise_map.mpr hp2
  have hterm : m.term =
      (((l.filter (fun r => decide (r.instr = i))).head?).map (fun r => r.term)).getD ("") := by
    rw [← hbuild]; rfl
  have hcrn : m.crn =
      (((l.filter (fun r => decide (r.instr = i))).head?).map (fun r => r.crn)).getD ("") := by
    rw [← hbuild]; rfl
  have hcourse : m.course =
      joinComma ((l.filter (fun r => decide (r.instr = i))).map (fun r => r.course)) := by
    rw [← hbuild]; rfl
  refine ⟨r0, by rw [hgeq]; rfl, ?_, ?_, ?_⟩
  · rw [hterm, ← hfe, hgeq]
    rfl
  · rw [hcrn, ← hfe, hgeq]
    rfl
  · rw [hcourse, hfe, dedupByKey_id_of_nodup _ (hfe ▸ hcourses)]

/-- Witness for C3 at a concrete deduplicated two-record input: the single
merged row for Jane Doe carries the first record's Term and CRN and both
course codes joined. -/
theorem merge_group_content_witness :
    ∃ r0, (([⟨"Spring 2023", "10001", "BA101", "Jane Doe"⟩,
             ⟨"Spring 2023", "10002", "BA302", "Jane Doe"⟩] :
        List CourseRecord).filter (fun r =>
          decide (r.instr = (MergedRecord.mk ("Jane Doe") ("BA101, BA302") ("Spring 2023") ("10001")).instr))).head? =
        some r0 ∧
      (MergedRecord.mk ("Jane Doe") ("BA101, BA302") ("Spring 2023") ("10001")).term = r0.term ∧
      (MergedRecord.mk ("Jane Doe") ("BA101, BA302") ("Spring 2023") ("10001")).crn = r0.crn ∧
      (MergedRecord.mk ("Jane Doe") ("BA101, BA302") ("Spring 2023") ("10001")).course =
        joinComma (dedupByKey id
          ((([⟨"Spring 2023", "10001", "BA101", "Jane Doe"⟩,
              ⟨"Spring 2023", "10002", "BA302", "Jane Doe"⟩] :
            List CourseRecord).filter (fun r =>
              decide (r.instr = (MergedRecord.mk ("Jane Doe") ("BA101, BA302") ("Spring 2023") ("10001")).instr))).map
            (fun r => r.course))) :=
  merge_group_content
    [⟨"Spring 2023", "10001", "BA101", "Jane Doe"⟩,
     ⟨"Spring 2023", "10002", "BA302", "Jane Doe"⟩]
    (by decide)
    (MergedRecord.mk ("Jane Doe") ("BA101, BA302") ("Spring 2023") ("10001"))
    (by decide)

theorem splitFirstSpace_gen :
    ∀ (cs : List Char) (acc : List Char),
      splitFirstSpace acc cs =
        if ' ' ∈ cs then
          some (acc.reverse ++ cs.takeWhile (fun c => decide (c ≠ ' ')),
            (cs.dropWhile (fun c => decide (c ≠ ' '))).drop 1)
        else none := by
  intro cs
  induction cs with
  | nil => intro acc; simp [splitFirstSpace]
  | cons c rest ih =>
    intro acc
    by_cases hc : c = ' '
    · subst hc
      simp [splitFirstSpace, List.takeWhile_cons, List.dropWhile_cons]
    · have hne : (' ' ∈ c :: rest) ↔ (' ' ∈ rest) := by
        rw [List.mem_cons]
        constructor
        · rintro (h | h)
          · exact absurd h.symm hc
          · exact h
        · exact Or.inr
      simp only [splitFirstSpace, if_neg hc, ih (c :: acc), List.takeWhile_cons,
        List.dropWhile_cons, hne]
      by_cases hmem : ' ' ∈ rest
      · simp [hmem, hc]
      · simp [hmem]

/-- C6 counterexample: on detail HTML whose instructor-detail fragment
matches but whose captured text Cher contains no whitespace, the name
resolver does not return any first and last name pair: the tuple unpacking
raises and the generic handler aborts the run, instead of the claimed
split-and-continue behaviour. -/
theorem extract_name_counterexample :
    searchDetail cherHtml.data = some ("Cher").data ∧
    ∀ f l : String, extract_instructor_name cherHtml ≠ Except.ok (f, l) := by
  constructor
  · decide
  · intro f l hok
    have he : extract_instructor_name cherHtml = Except.error () := rfl
    rw [he] at hok
    exact Except.noConfusion hok

/-- C6 amended: if no instructor-detail fragment matches, the name resolver
returns empty first and last names and continues; if a fragment matches and
the captured text contains a space, it splits at the first space character
into first name and remainder-as-last-name; if a fragment matches but the
captured text contains no space, the run aborts with an error (the tuple
unpacking raises and the generic handler exits). -/
theorem extract_name_spec (html : String) :
    (searchDetail html.data = none → extract_instructor_name html = Except.ok ("", "")) ∧
    (∀ cap, searchDetail html.data = some cap →
      (' ' ∈ cap → extract_instructor_name html =
          Except.ok (String.mk (cap.takeWhile (fun c => decide (c ≠ ' '))),
            String.mk ((cap.dropWhile (fun c => decide (c ≠ ' '))).drop 1))) ∧
      (' ' ∉ cap → extract_instructor_name html = Except.error ())) := by
  constructor
  · intro h
    simp [extract_instructor_name, h]
  · intro cap hcap
    constructor
    · intro hmem
      have hs := splitFirstSpace_gen cap []
      rw [if_pos hmem] at hs
      simp [extract_instructor_name, hcap, hs]
    · intro hmem
      have hs := splitFirstSpace_gen cap []
      rw [if_neg hmem] at hs
      simp [extract_instructor_name, hcap, hs]

/-- Witness for the amended C6: the documented example with Jane Doe. -/
theorem extract_name_witness :
    extract_instructor_name janeHtml = Except.ok ("Jane", "Doe") := by
  have h := ((extract_name_spec janeHtml).2 (("Jane Doe").data) (by decide)).1 (by decide)
  rw [h]
  rfl

/-- C7: get_emails processes every row (the output has one email slot per
input row), and for each row a directory search with at least one entry
yields the first entry's principal name while a search with zero entries
yields the absence marker none. -/
theorem get_emails_spec (lookup : String → String → List LdapEntry)
    (rows : List (String × String)) :
    (get_emails lookup rows).length = rows.length ∧
    ∀ i (hi : i < rows.length),
      (∀ e es, lookup (rows[i].1) (rows[i].2) = e :: es →
        (get_emails lookup rows)[i]? = some (some e.userPrincipalName)) ∧
      (lookup (rows[i].1) (rows[i].2) = [] →
        (get_emails lookup rows)[i]? = some none) := by
  refine ⟨List.length_map _ _, ?_⟩
  intro i hi
  have hg : (get_emails lookup rows)[i]? =
      some (match lookup (rows[i].1) (rows[i].2) with
            | [] => none
            | e :: _ => some e.userPrincipalName) := by
    unfold get_emails
    rw [List.getElem?_map, List.getElem?_eq_getElem hi]
    rfl
  constructor
  · intro e es he
    rw [hg, he]
  · intro he
    rw [hg, he]

/-- Witness for C7 on a concrete directory: the Jane Doe row resolves to
the first entry's principal name and the unmatched row gets none. -/
theorem get_emails_spec_witness :
    (get_emails dirJane [("Jane", "Doe"), ("Ghost", "Name")])[0]? =
      some (some ("doej@oregonstate.edu")) ∧
    (get_emails dirJane [("Jane", "Doe"), ("Ghost", "Name")])[1]? = some none := by
  constructor
  · exact ((get_emails_spec dirJane [("Jane", "Doe"), ("Ghost", "Name")]).2 0
      (by decide)).1 (LdapEntry.mk ("doej@oregonstate.edu")) [] (by decide)
  · exact ((get_emails_spec dirJane [("Jane", "Doe"), ("Ghost", "Name")]).2 1
      (by decide)).2 (by decide)

/-- C8 counterexample: a complete successful run over one row yields the
trace bind-then-search and contains no unbind event, so the bound directory
session is not explicitly released on the normal exit path. -/
theorem email_trace_counterexample :
    emailTrace true (fun _ _ => true) [("Jane", "Doe")] =
      [DirEvent.bind, DirEvent.search ("Jane") ("Doe")] ∧
    DirEvent.unbind ∉ emailTrace true (fun _ _ => true) [("Jane", "Doe")] := by
  constructor
  · rfl
  · decide

/-- C8 amended: in every run the directory session is bound exactly once,
before the per-row search loop, and reused for every search; it is never
explicitly released: no trace, whether the run completes or aborts, contains
an unbind event. -/
theorem email_trace_amended (bindOk : Bool) (ok : String → String → Bool)
    (rows : List (String × String)) :
    ∃ rest, emailTrace bindOk ok rows = DirEvent.bind :: rest ∧
      DirEvent.bind ∉ rest ∧ DirEvent.unbind ∉ DirEvent.bind :: rest := by
  have hsearch : ∀ rs : List (String × String),
      DirEvent.bind ∉ searchTrace ok rs ∧ DirEvent.unbind ∉ searchTrace ok rs := by
    intro rs
    induction rs with
    | nil => simp [searchTrace]
    | cons p rest ih =>
      simp only [searchTrace]
      by_cases h : ok p.1 p.2
      · rw [if_pos h]
        refine ⟨fun hmem => ?_, fun hmem => ?_⟩
        · rcases List.mem_cons.mp hmem with h2 | h2
          · exact DirEvent.noConfusion h2
          · exact ih.1 h2
        · rcases List.mem_cons.mp hmem with h2 | h2
          · exact DirEvent.noConfusion h2
          · exact ih.2 h2
      · rw [if_neg h]
        refine ⟨fun hmem => ?_, fun hmem => ?_⟩
        · rcases List.mem_cons.mp hmem with h2 | h2
          · exact DirEvent.noConfusion h2
          · rcases List.mem_cons.mp h2 with h3 | h3
            · exact DirEvent.noConfusion h3
            · cases h3
        · rcases List.mem_cons.mp hmem with h2 | h2
          · exact DirEvent.noConfusion h2
          · rcases List.mem_cons.mp h2 with h3 | h3
            · exact DirEvent.noConfusion h3
            · cases h3
  by_cases hb : bindOk
  · refine ⟨searchTrace ok rows, by simp [emailTrace, hb], (hsearch rows).1, ?_⟩
    intro hmem
    rcases List.mem_cons.mp hmem with h2 | h2
    · exact DirEvent.noConfusion h2
    · exact (hsearch rows).2 h2
  · refine ⟨[DirEvent.exitRun 1], by simp [emailTrace, hb], by decide, by decide⟩

/-- C9: the final reshaping maps every row to a row whose column names are
exactly Last_Name, First_Name, Term, Course, Email in that order; it drops
no row and adds none (the output is the per-index image of the input), and
every row's Email cell is present, holding the resolved address or the
absence marker. -/
theorem roster_assemble_spec (rows : List EmailedRow) :
    (roster_assemble rows).length = rows.length ∧
    (∀ out ∈ roster_assemble rows, out.map Prod.fst = rosterColumns) ∧
    (∀ i : Nat, (roster_assemble rows)[i]? = (rows[i]?).map assembleRow) ∧
    (∀ r ∈ rows, List.lookup ("Email") (assembleRow r) = some r.email) := by
  refine ⟨List.length_map _ _, ?_, ?_, ?_⟩
  · intro out hout
    rcases List.mem_map.mp hout with ⟨r, _, hr⟩
    rw [← hr]
    rfl
  · intro i
    unfold roster_assemble
    rw [List.getElem?_map]
  · intro r _
    rfl

/-- Witness for C9 at a concrete emailed row. -/
theorem roster_assemble_witness :
    (assembleRow (EmailedRow.mk ("Spring 2023") ("BA101, BA302") ("Jane") ("Doe")
        (some ("doej@oregonstate.edu")))).map Prod.fst = rosterColumns ∧
    List.lookup ("Email") (assembleRow (EmailedRow.mk ("Spring 2023") ("BA101, BA302")
        ("Jane") ("Doe") (some ("doej@oregonstate.edu")))) =
      some (some ("doej@oregonstate.edu")) := by
  have h := roster_assemble_spec [EmailedRow.mk ("Spring 2023") ("BA101, BA302")
    ("Jane") ("Doe") (some ("doej@oregonstate.edu"))]
  exact ⟨h.2.1 (assembleRow (EmailedRow.mk ("Spring 2023") ("BA101, BA302") ("Jane")
      ("Doe") (some ("doej@oregonstate.edu")))) (by decide),
    h.2.2.2 (EmailedRow.mk ("Spring 2023") ("BA101, BA302") ("Jane") ("Doe")
      (some ("doej@oregonstate.edu"))) (by decide)⟩

/-- C10: for a term code absent from the fixed term table, get_classes
aborts with the same generic exit code one as any search failure, for every
behaviour of the search endpoint: building the Term cell of the first
subject's rows raises inside the try block and the generic handler exits. -/
theorem get_classes_bad_term (api : String → String → Option (List RawResult))
    (year term_code : String) (h : term_dict.lookup term_code = none) :
    get_classes api year term_code = Except.error 1 := by
  unfold get_classes majors get_classes_go
  cases hapi : api (year ++ term_code) ("MGMT") with
  | none => simp [fetch_major, hapi]
  | some results => simp [fetch_major, hapi, h]

/-- Witness for C10 at the unknown term code 05. -/
theorem get_classes_bad_term_witness :
    term_dict.lookup ("05") = none ∧
    get_classes (fun _ _ => some []) ("2023") ("05") = Except.error 1 :=
  ⟨by decide, get_classes_bad_term (fun _ _ => some []) ("2023") ("05") (by decide)⟩
